import Mathlib

/-!
Verification of the brainrot video pipeline's caption-timing, platform-duration,
background-preparation, fallback-artifact, retry and text-cleaning logic,
as a shallow embedding of the Python sources
(`src/jeremy-claude/brainrot_generator/src/content_generator.py`,
`voice_generator.py`, `video_assembler.py`, `pdf_processor.py`, `src/agents.py`).

Python strings are modelled as `List Char`; Python floats appearing in the
duration arithmetic are modelled as `ℚ` (all comparisons and values the claims
mention are exact at this scale); Python `int` parameters as `Int`.
-/

set_option maxHeartbeats 1000000

/-- Python strings, modelled as lists of characters. -/
abbrev Str := List Char

/-- The whitespace test used by Python `str.split()` / `str.strip()`. -/
def isWS (c : Char) : Bool := c.isWhitespace

/-- State machine of Python `str.split()` with no separator argument:
`acc` is the non-whitespace run currently being read (in order). -/
def splitWordsAux (acc : Str) : Str → List Str
  | [] => if acc = [] then [] else [acc]
  | c :: cs =>
    if isWS c then
      if acc = [] then splitWordsAux [] cs else acc :: splitWordsAux [] cs
    else splitWordsAux (acc ++ [c]) cs

/-- Python `s.split()`: the maximal runs of non-whitespace characters of `s`. -/
def splitWords (s : Str) : List Str := splitWordsAux [] s

/-- Python `' '.join(ws)`. -/
def joinWords : List Str → Str
  | [] => []
  | [w] => w
  | w :: w' :: ws => w ++ ' ' :: joinWords (w' :: ws)

/-- A word as produced by `str.split()`: non-empty and free of whitespace. -/
def GoodWord (w : Str) : Prop := w ≠ [] ∧ ∀ c ∈ w, isWS c = false

instance : DecidablePred GoodWord := fun w => by unfold GoodWord; infer_instance

/-- Occurrence of a contiguous pattern in a list (Python's `pat in s`). -/
def OccursIn {α : Type} (pat s : List α) : Prop := ∃ l r, s = l ++ pat ++ r

theorem occursIn_cons_iff {α : Type} (pat s : List α) (c : α) :
    OccursIn pat (c :: s) ↔ (∃ r, c :: s = pat ++ r) ∨ OccursIn pat s := by
  constructor
  · rintro ⟨l, r, h⟩
    cases l with
    | nil => exact Or.inl ⟨r, h⟩
    | cons x l' =>
      right
      simp only [List.cons_append] at h
      injection h with h1 h2
      exact ⟨l', r, h2⟩
  · rintro (⟨r, h⟩ | ⟨l, r, h⟩)
    · exact ⟨[], r, h⟩
    · exact ⟨c :: l, r, by simp [h]⟩

theorem occursIn_cons_of {α : Type} {pat s : List α} (c : α) :
    OccursIn pat s → OccursIn pat (c :: s) := by
  rintro ⟨l, r, h⟩; exact ⟨c :: l, r, by simp [h]⟩

theorem occursIn_append_left {α : Type} {pat s : List α} (u : List α) :
    OccursIn pat s → OccursIn pat (u ++ s) := by
  rintro ⟨l, r, h⟩; exact ⟨u ++ l, r, by simp [h]⟩

theorem occursIn_of_occursIn_middle {α : Type} {pat t : List α} (u v : List α) :
    OccursIn pat t → OccursIn pat (u ++ t ++ v) := by
  rintro ⟨l, r, h⟩; exact ⟨u ++ l, r ++ v, by simp [h]⟩

/-- Boolean test: does `s` begin with `pat`? -/
def beginsWith : Str → Str → Bool
  | [], _ => true
  | _ :: _, [] => false
  | p :: ps, c :: cs => p = c && beginsWith ps cs

/-- Boolean occurrence test, Python's `pat in s` for strings. -/
def containsPat (pat : Str) : Str → Bool
  | [] => pat.isEmpty
  | c :: cs => beginsWith pat (c :: cs) || containsPat pat cs

theorem beginsWith_iff (pat s : Str) :
    beginsWith pat s = true ↔ ∃ r, s = pat ++ r := by
  induction pat generalizing s with
  | nil => simp [beginsWith]
  | cons p ps ih =>
    cases s with
    | nil => simp [beginsWith]
    | cons c cs =>
      simp only [beginsWith, Bool.and_eq_true, decide_eq_true_eq, ih,
        List.cons_append, List.cons.injEq]
      constructor
      · rintro ⟨rfl, r, rfl⟩; exact ⟨r, rfl, rfl⟩
      · rintro ⟨r, rfl, rfl⟩; exact ⟨rfl, r, rfl⟩

theorem containsPat_iff (pat s : Str) :
    containsPat pat s = true ↔ OccursIn pat s := by
  induction s with
  | nil =>
    simp only [containsPat, List.isEmpty_iff, OccursIn]
    constructor
    · rintro rfl; exact ⟨[], [], rfl⟩
    · rintro ⟨l, r, h⟩
      rcases List.append_eq_nil.mp h.symm with ⟨h1, h2⟩
      exact (List.append_eq_nil.mp h1).2
  | cons c cs ih =>
    simp only [containsPat, Bool.or_eq_true, beginsWith_iff, ih,
      occursIn_cons_iff]

/-- Characters accumulated by `splitWordsAux` stay non-whitespace, and every
emitted word is non-empty: every word of `str.split()` is a `GoodWord`. -/
theorem goodWord_splitWordsAux (s : Str) :
    ∀ acc, (∀ c ∈ acc, isWS c = false) →
      ∀ w ∈ splitWordsAux acc s, GoodWord w := by
  induction s with
  | nil =>
    intro acc hacc w hw
    simp only [splitWordsAux] at hw
    split at hw
    · simp at hw
    · next hne =>
      simp only [List.mem_singleton] at hw
      exact hw ▸ ⟨hne, hacc⟩
  | cons c cs ih =>
    intro acc hacc w hw
    simp only [splitWordsAux] at hw
    by_cases hws : isWS c
    · rw [if_pos hws] at hw
      split at hw
      · exact ih [] (by simp) w hw
      · next hne =>
        rcases List.mem_cons.mp hw with rfl | hw'
        · exact ⟨hne, hacc⟩
        · exact ih [] (by simp) w hw'
    · rw [if_neg hws] at hw
      refine ih (acc ++ [c]) ?_ w hw
      intro x hx
      rcases List.mem_append.mp hx with h | h
      · exact hacc x h
      · simp only [List.mem_singleton] at h
        exact h ▸ (by simpa using hws)

theorem goodWord_splitWords {s : Str} : ∀ w ∈ splitWords s, GoodWord w :=
  goodWord_splitWordsAux s [] (by simp)

/-- Reading a whitespace-free word extends the accumulator. -/
theorem splitWordsAux_word (w : Str) (hw : ∀ c ∈ w, isWS c = false) :
    ∀ acc s, splitWordsAux acc (w ++ s) = splitWordsAux (acc ++ w) s := by
  induction w with
  | nil => intro acc s; simp
  | cons c w' ih =>
    intro acc s
    have hc : isWS c = false := hw c (by simp)
    simp only [List.cons_append, splitWordsAux, hc, Bool.false_eq_true,
      if_false, List.append_eq]
    rw [ih (fun x hx => hw x (by simp [hx])) (acc ++ [c]) s]
    simp

theorem splitWordsAux_space (acc : Str) (hacc : acc ≠ []) (s : Str) :
    splitWordsAux acc (' ' :: s) = acc :: splitWordsAux [] s := by
  have : isWS ' ' = true := by decide
  simp [splitWordsAux, this, hacc]

/-- Round trip: splitting `' '.join(ws)` recovers `ws` when every element is a
word (non-empty, no whitespace). -/
theorem splitWords_joinWords :
    ∀ ws : List Str, (∀ w ∈ ws, GoodWord w) → splitWords (joinWords ws) = ws := by
  intro ws
  induction ws with
  | nil => intro _; rfl
  | cons w ws ih =>
    intro hgood
    cases ws with
    | nil =>
      have hg := hgood w (by simp)
      show splitWordsAux [] (joinWords [w]) = [w]
      have : joinWords [w] = w ++ [] := by simp [joinWords]
      rw [this, splitWordsAux_word w hg.2 [] []]
      simp [splitWordsAux, hg.1]
    | cons w' ws' =>
      have hg := hgood w (by simp)
      show splitWordsAux [] (joinWords (w :: w' :: ws')) = w :: w' :: ws'
      have hj : joinWords (w :: w' :: ws') = w ++ ' ' :: joinWords (w' :: ws') := by
        simp [joinWords]
      rw [hj, splitWordsAux_word w hg.2 [] _]
      simp only [List.nil_append]
      rw [splitWordsAux_space w hg.1]
      have := ih (fun x hx => hgood x (by simp [hx]))
      rw [show splitWordsAux [] (joinWords (w' :: ws')) =
        splitWords (joinWords (w' :: ws')) from rfl, this]

theorem joinWords_cons_cons (w w' : Str) (ws : List Str) :
    joinWords (w :: w' :: ws) = w ++ ' ' :: joinWords (w' :: ws) := rfl

theorem joinWords_append (xs ys : List Str) (hx : xs ≠ []) (hy : ys ≠ []) :
    joinWords (xs ++ ys) = joinWords xs ++ ' ' :: joinWords ys := by
  induction xs with
  | nil => exact absurd rfl hx
  | cons w xs ih =>
    cases xs with
    | nil =>
      cases ys with
      | nil => exact absurd rfl hy
      | cons y ys' => simp [joinWords_cons_cons, joinWords]
    | cons w' xs' =>
      have ih' := ih (by simp)
      calc joinWords ((w :: w' :: xs') ++ ys)
          = w ++ ' ' :: joinWords ((w' :: xs') ++ ys) := by
            rw [List.cons_append, List.cons_append, joinWords_cons_cons]
        _ = w ++ ' ' :: (joinWords (w' :: xs') ++ ' ' :: joinWords ys) := by
            rw [ih']
        _ = joinWords (w :: w' :: xs') ++ ' ' :: joinWords ys := by
            rw [joinWords_cons_cons]; simp

/-- Joining the per-chunk joins equals joining the concatenation of the chunks,
as long as no chunk is empty. -/
theorem joinWords_map_joinWords :
    ∀ chunks : List (List Str), (∀ ch ∈ chunks, ch ≠ []) →
      joinWords (chunks.map joinWords) = joinWords chunks.flatten := by
  intro chunks
  induction chunks with
  | nil => intro _; rfl
  | cons ch chs ih =>
    intro hne
    cases chs with
    | nil => simp [joinWords]
    | cons ch' chs' =>
      have h1 : ch ≠ [] := hne ch (by simp)
      have h2 : (ch' :: chs').flatten ≠ [] := by
        have hne' : ch' ≠ [] := hne ch' (by simp)
        intro h
        rw [List.flatten_cons] at h
        exact hne' (List.append_eq_nil.mp h).1
      have hmap : (List.map joinWords (ch :: ch' :: chs')) =
          joinWords ch :: (List.map joinWords (ch' :: chs')) := by simp
      rw [hmap]
      have hrec := ih (fun x hx => hne x (by simp [hx]))
      have hmapne : List.map joinWords (ch' :: chs') ≠ [] := by simp
      rw [show joinWords (joinWords ch :: List.map joinWords (ch' :: chs')) =
        joinWords ([joinWords ch] ++ List.map joinWords (ch' :: chs')) from rfl]
      rw [joinWords_append [joinWords ch] _ (by simp) hmapne, hrec]
      rw [show (ch :: ch' :: chs').flatten = ch ++ (ch' :: chs').flatten from rfl]
      rw [joinWords_append ch _ h1 h2]
      simp [joinWords]

/-! ## ContentGenerator (`content_generator.py`) -/

namespace ContentGenerator

/-- Speaking-rate constant of the caption-timing loop (line 144):
`words_per_second = 150 / 60`. -/
def words_per_second : ℚ := 150 / 60

/-- A timed caption dictionary as built by `generate_captions` (lines 152-157). -/
structure Caption where
  text : Str
  start : ℚ
  duration : ℚ
  «end» : ℚ
deriving DecidableEq, Repr

/-- The per-word grouping loop of `generate_captions` (lines 129-141): each word
is appended to the current segment `cur`; once `len(cur) >= words_per_caption`
the segment is flushed; a non-empty remainder is flushed at the end. -/
def segmentWords (k : Int) : List Str → List Str → List (List Str)
  | cur, [] => if cur = [] then [] else [cur]
  | cur, w :: ws =>
    if ((cur ++ [w]).length : Int) ≥ k then (cur ++ [w]) :: segmentWords k [] ws
    else segmentWords k (cur ++ [w]) ws

/-- The timing loop of `generate_captions` (lines 145-159): each caption gets
`duration = len(caption.split()) / words_per_second`, `start` the running time,
and `end = start + duration`. -/
def captionData : List Str → ℚ → List Caption
  | [], _ => []
  | c :: cs, t =>
    { text := c, start := t,
      duration := ((splitWords c).length : ℚ) / words_per_second,
      «end» := t + ((splitWords c).length : ℚ) / words_per_second }
      :: captionData cs (t + ((splitWords c).length : ℚ) / words_per_second)

/-- `ContentGenerator.generate_captions` (lines 114-161). -/
def generate_captions (script : Str) (words_per_caption : Int) : List Caption :=
  captionData ((segmentWords words_per_caption [] (splitWords script)).map joinWords) 0

/-- One row of the `platform_limits` table (lines 174-178). -/
structure Limits where
  max_duration : ℕ
  optimal_duration : ℕ
deriving DecidableEq, Repr

/-- The `platform_limits` lookup of `optimize_for_platform` (lines 174-181). -/
def platform_limits (p : String) : Option Limits :=
  if p = "tiktok" then some ⟨180, 60⟩
  else if p = "instagram" then some ⟨90, 30⟩
  else if p = "youtube" then some ⟨60, 45⟩
  else none

/-- The duration estimate of `optimize_for_platform` (lines 186-187):
`estimated_duration = (len(script.split()) / 150) * 60`. -/
def optimize_estimated_duration (script : Str) : ℚ :=
  ((splitWords script).length : ℚ) / 150 * 60

/-- The truncation word budget of `optimize_for_platform` (line 194):
`target_words = int((optimal_duration / 60) * 150)`. -/
def target_words (lim : Limits) : ℕ :=
  (⌊(lim.optimal_duration : ℚ) / 60 * 150⌋).toNat

/-- The ellipsis marker appended on truncation (line 199). -/
def ellipsis : Str := ['.', '.', '.']

/-- `ContentGenerator.optimize_for_platform` (lines 163-201). -/
def optimize_for_platform (script : Str) (platform : String) : Str :=
  match platform_limits platform with
  | none => script
  | some limits =>
    if optimize_estimated_duration script ≤ (limits.optimal_duration : ℚ) then
      script
    else
      let words := (splitWords script).take (target_words limits)
      let words :=
        if words.length < (splitWords script).length then words ++ [ellipsis]
        else words
      joinWords words

end ContentGenerator

/-! ## VoiceGenerator (`voice_generator.py`) -/

namespace VoiceGenerator

/-- `VoiceGenerator.estimate_duration` (lines 125-143):
`(len(text.split()) / 150) * 60 / speed`. -/
def estimate_duration (text : Str) (speed : ℚ) : ℚ :=
  ((splitWords text).length : ℚ) / 150 * 60 / speed

end VoiceGenerator

/-! ## VideoAssembler (`video_assembler.py`) -/

namespace VideoAssembler

/-- Fixed output width (line 35). -/
def output_width : ℕ := 1080

/-- Fixed output height (line 36). -/
def output_height : ℕ := 1920

/-- Target aspect ratio `9/16` (line 37). -/
def aspect_ratio : ℚ := 9 / 16

/-- A moviepy clip, abstracted to the fields `_prepare_background` manipulates:
pixel dimensions and duration in seconds.  `clip.crop`, `clip.resize`,
`concatenate_videoclips` and `clip.subclip` act on these fields as the moviepy
library documents (crop/resize set the dimensions and keep the duration;
concatenation of `n` copies multiplies the duration by `n`; `subclip(0, d)`
keeps `d` seconds from the start). -/
structure Clip where
  w : ℕ
  h : ℕ
  duration : ℚ
deriving DecidableEq, Repr

/-- The 9:16 crop of `_prepare_background` (lines 207-219): if the source is
wider than 9:16 the width is cropped to `int(h * aspect_ratio)` keeping `h`
(center crop on the horizontal axis), else the height is cropped to
`int(w / aspect_ratio)` keeping `w` (center crop on the vertical axis).
Python `int()` truncates, which is the floor of these non-negative values. -/
def crop_dims (w h : ℕ) : ℕ × ℕ :=
  if (w : ℚ) / (h : ℚ) > aspect_ratio then
    ((⌊(h : ℚ) * aspect_ratio⌋).toNat, h)
  else
    (w, (⌊(w : ℚ) / aspect_ratio⌋).toNat)

/-- The center arguments the crop call passes (lines 215 and 219): a wider
source is cropped about `x_center = w/2` (no vertical center given); any other
source about `y_center = h/2` (no horizontal center given). -/
def crop_center (w h : ℕ) : Option ℚ × Option ℚ :=
  if (w : ℚ) / (h : ℚ) > aspect_ratio then (some ((w : ℚ) / 2), none)
  else (none, some ((h : ℚ) / 2))

/-- Duration after the loop step (lines 225-228): if the clip is shorter than
the target, `n_loops = int(duration / clip.duration) + 1` whole copies are
concatenated. -/
def looped_duration (native target : ℚ) : ℚ :=
  if native < target then native * ((⌊target / native⌋ : ℚ) + 1) else native

/-- `VideoAssembler._prepare_background` (lines 194-233): crop to 9:16, resize
to 1080x1920, loop whole copies if too short, then `subclip(0, duration)`. -/
def prepare_background (c : Clip) (duration : ℚ) : Clip :=
  let cropped : Clip :=
    { w := (crop_dims c.w c.h).1, h := (crop_dims c.w c.h).2,
      duration := c.duration }
  let resized : Clip :=
    { cropped with w := output_width, h := output_height }
  let looped : Clip :=
    { resized with duration := looped_duration resized.duration duration }
  { looped with duration := duration }

end VideoAssembler

/-! ## Agents (`src/agents.py`) -/

namespace Agents

/-- A fuelled left-to-right non-overlapping replace-all, Python's
`s.replace(pat, repl)`; the fuel `s.length` always suffices since each step
consumes at least one character of `s`. -/
def replaceAllFuel (pat repl : Str) : ℕ → Str → Str
  | 0, s => s
  | _, [] => []
  | fuel + 1, c :: cs =>
    if pat ≠ [] ∧ beginsWith pat (c :: cs) = true then
      repl ++ replaceAllFuel pat repl fuel ((c :: cs).drop pat.length)
    else c :: replaceAllFuel pat repl fuel cs

/-- Python `s.replace(pat, repl)`. -/
def replaceAllChars (pat repl s : Str) : Str :=
  replaceAllFuel pat repl s.length s

/-- The script dictionary returned by `ScriptAgent.generate_script`
(lines 158-163 of `agents.py`). -/
structure ScriptDict where
  script : Str
  duration : ℕ
  visual_cues : List Str
  style : Str
deriving DecidableEq, Repr

/-- The `visual_cues` list of `generate_script` (lines 147-156). -/
def visual_cues_list : List Str :=
  [("brain explosion with fire effects").toList,
   ("confused scientist with question marks").toList,
   ("galaxy brain expanding sequence").toList,
   ("data charts flying everywhere").toList,
   ("mind blown reaction compilation").toList,
   ("rocket launch with rainbow trail").toList,
   ("laboratory equipment dancing").toList,
   ("brain emoji rain finale").toList]

/-- `ScriptAgent.generate_script` (lines 111-163), restricted to the returned
dictionary: the assembled script prose of lines 121-144 is abstracted as the
parameter `script_text` (no claim depends on its contents); the other three
fields are the literal constants of lines 158-163. -/
def generate_script (script_text : Str) : ScriptDict :=
  { script := script_text, duration := 90,
    visual_cues := visual_cues_list, style := ("detailed_brainrot").toList }

/-- One enumerated visual-cue line, `f"{i}. {cue}\n"` (line 317). -/
def cueLine (i : ℕ) (cue : Str) : Str :=
  (toString i).toList ++ '.' :: ' ' :: (cue ++ ['\n'])

/-- The cue-enumeration loop (lines 316-317), numbering from `i`. -/
def enumerateCues : ℕ → List Str → Str
  | _, [] => []
  | i, c :: cs => cueLine i c ++ enumerateCues (i + 1) cs

/-- The `'='*50` divider (lines 310, 312). -/
def eqBar : Str := (List.replicate 50 '=')

/-- The text written to the fallback `_detailed_script.txt` artifact by
`VideoAgent._create_video_with_text` (lines 308-317), with
`duration = script.get('duration', 90)` (line 276). -/
def fallback_content (s : ScriptDict) : Str :=
  ("🧠 BRAINROT RESEARCH VIDEO SCRIPT 🧠\n").toList
  ++ eqBar ++ ("\n\n").toList
  ++ s.script
  ++ ("\n\n").toList ++ eqBar ++ ("\n").toList
  ++ ("Duration: ").toList ++ (toString s.duration).toList ++ (" seconds\n").toList
  ++ ("Style: ").toList ++ s.style ++ ("\n").toList
  ++ ("\nVisual Cues:\n").toList
  ++ enumerateCues 1 s.visual_cues

/-- `VideoAgent._create_video_with_text` (lines 273-321), with the success of
the ffmpeg subprocess abstracted as the flag `encode_fails`.  Returns the path
the function returns together with the fallback file written on failure (path
and contents); on success no fallback file is written. -/
def create_video_with_text (s : ScriptDict) (output_path : Str)
    (encode_fails : Bool) : Str × Option (Str × Str) :=
  if encode_fails then
    let fp := replaceAllChars (".mp4").toList ("_detailed_script.txt").toList
      output_path
    (fp, some (fp, fallback_content s))
  else (output_path, none)

end Agents

/-! ## Retry behaviour of `generate_summary` (`content_generator.py`) -/

namespace Retry

/-- Semantics of tenacity's `@retry(stop=stop_after_attempt(n), ...)` around a
possibly-raising call `f` (the `i`-th invocation is `f i`): the call is retried
while it raises, for at most `n` invocations in total.  Returns the final
outcome together with how many invocations were made. -/
def retryCall {E A : Type} (f : ℕ → Except E A) : ℕ → ℕ → Except E A × ℕ
  | 0, i => (f i, 1)
  | 1, i => (f i, 1)
  | n + 2, i =>
    match f i with
    | .ok a => (.ok a, 1)
    | .error _ =>
      let r := retryCall f (n + 1) (i + 1)
      (r.1, r.2 + 1)

/-- The body of `ContentGenerator.generate_summary` (lines 52-112): the whole
body is wrapped in `try ... except Exception: return None`, so a failing
service call (`svc i` for the `i`-th invocation) is swallowed and the body
returns `None` instead of raising. -/
def generate_summary_body {E C : Type} (svc : ℕ → Except E C) (i : ℕ) :
    Except E (Option C) :=
  match svc i with
  | .ok c => .ok (some c)
  | .error _ => .ok none

/-- `generate_summary` as decorated (line 40):
`@retry(stop=stop_after_attempt(3), wait=wait_exponential(...))` applied to the
exception-swallowing body.  Returns the outcome and the number of invocations
of the body that tenacity performs. -/
def generate_summary {E C : Type} (svc : ℕ → Except E C) :
    Except E (Option C) × ℕ :=
  retryCall (generate_summary_body svc) 3 0

/-- A summarization service that raises on the first call and succeeds on
every later call. -/
def failThenSucceed : ℕ → Except Unit Unit :=
  fun i => if i = 0 then .error () else .ok ()

end Retry

/-! ## PDFProcessor (`pdf_processor.py`) -/

namespace PDFProcessor

/-- The excessive-newline pattern `'\n\n\n'` (line 87). -/
def NNN : Str := ['\n', '\n', '\n']

/-- The excessive-space pattern `'  '` (line 91). -/
def SS : Str := [' ', ' ']

/-- One pass of `text.replace('\n\n\n', '\n\n')` (line 88): left-to-right
non-overlapping replacement of the literal three-newline pattern. -/
def collapseNewlines : Str → Str
  | '\n' :: '\n' :: '\n' :: rest => '\n' :: '\n' :: collapseNewlines rest
  | c :: rest => c :: collapseNewlines rest
  | [] => []

/-- One pass of `text.replace('  ', ' ')` (line 92). -/
def collapseSpaces : Str → Str
  | ' ' :: ' ' :: rest => ' ' :: collapseSpaces rest
  | c :: rest => c :: collapseSpaces rest
  | [] => []

/-- The loop `while '\n\n\n' in text: text = text.replace('\n\n\n','\n\n')`
(lines 87-88), fuelled; each iteration with the pattern present strictly
shortens the text, so fuel `s.length` suffices. -/
def newlinesLoop : ℕ → Str → Str
  | 0, s => s
  | f + 1, s =>
    if containsPat NNN s then newlinesLoop f (collapseNewlines s) else s

/-- The loop `while '  ' in text: text = text.replace('  ',' ')`
(lines 91-92), fuelled. -/
def spacesLoop : ℕ → Str → Str
  | 0, s => s
  | f + 1, s =>
    if containsPat SS s then spacesLoop f (collapseSpaces s) else s

/-- Python `text.strip()`: drop whitespace from both ends. -/
def strip (s : Str) : Str :=
  ((s.dropWhile isWS).reverse.dropWhile isWS).reverse

/-- `PDFProcessor._clean_text` (lines 76-97). -/
def clean_text (t : Str) : Str :=
  strip (spacesLoop (newlinesLoop t.length t).length (newlinesLoop t.length t))

end PDFProcessor

/-! ## Lemmas about the caption segmentation and timing -/

namespace ContentGenerator

theorem segmentWords_flatten (k : Int) :
    ∀ (ws cur : List Str), (segmentWords k cur ws).flatten = cur ++ ws := by
  intro ws
  induction ws with
  | nil => intro cur; by_cases h : cur = [] <;> simp [segmentWords, h]
  | cons w ws ih =>
    intro cur
    simp only [segmentWords]
    split
    · simp [ih]
    · rw [ih (cur ++ [w])]; simp

theorem segmentWords_mem (k : Int) :
    ∀ (ws cur : List Str), ((cur.length : Int) < k) →
      ∀ ch ∈ segmentWords k cur ws, ch ≠ [] ∧ ((ch.length : Int) ≤ k) := by
  intro ws
  induction ws with
  | nil =>
    intro cur hcur ch hch
    by_cases h : cur = []
    · simp [segmentWords, h] at hch
    · simp only [segmentWords, if_neg h, List.mem_singleton] at hch
      subst hch
      exact ⟨h, le_of_lt hcur⟩
  | cons w ws ih =>
    intro cur hcur ch hch
    have hpos : (0 : Int) < k := by
      have : (0 : Int) ≤ (cur.length : Int) := by positivity
      omega
    simp only [segmentWords] at hch
    split at hch
    · next hge =>
      rcases List.mem_cons.mp hch with rfl | hch'
      · refine ⟨by simp, ?_⟩
        simp only [List.length_append, List.length_singleton]
        push_cast
        omega
      · exact ih [] (by simpa using hpos) ch hch'
    · next hlt =>
      refine ih (cur ++ [w]) ?_ ch hch
      omega

theorem segmentWords_dropLast_len (k : Int) :
    ∀ (ws cur : List Str), ((cur.length : Int) < k) →
      ∀ ch ∈ (segmentWords k cur ws).dropLast, ((ch.length : Int) = k) := by
  intro ws
  induction ws with
  | nil =>
    intro cur hcur ch hch
    by_cases h : cur = [] <;> simp [segmentWords, h] at hch
  | cons w ws ih =>
    intro cur hcur ch hch
    have hpos : (0 : Int) < k := by
      have : (0 : Int) ≤ (cur.length : Int) := by positivity
      omega
    simp only [segmentWords] at hch
    split at hch
    · next hge =>
      cases hrest : segmentWords k [] ws with
      | nil => rw [hrest] at hch; simp at hch
      | cons r rs =>
        rw [hrest] at hch
        rw [List.dropLast_cons₂] at hch
        rcases List.mem_cons.mp hch with rfl | hch'
        · simp only [List.length_append, List.length_singleton] at hge ⊢
          push_cast at hge ⊢
          omega
        · have := ih [] (by simpa using hpos)
          rw [hrest] at this
          exact this ch hch'
    · next hlt =>
      refine ih (cur ++ [w]) ?_ ch hch
      omega

theorem segmentWords_nonpos (k : Int) (hk : k ≤ 0) :
    ∀ ws : List Str, segmentWords k [] ws = ws.map (fun w => [w]) := by
  intro ws
  induction ws with
  | nil => simp [segmentWords]
  | cons w ws ih =>
    have hc : ((([] : List Str) ++ [w]).length : Int) ≥ k := by
      simp only [List.nil_append, List.length_singleton]
      omega
    rw [show segmentWords k [] (w :: ws) =
      if ((([] : List Str) ++ [w]).length : Int) ≥ k then
        (([] : List Str) ++ [w]) :: segmentWords k [] ws
      else segmentWords k ([] ++ [w]) ws from rfl, if_pos hc]
    simp [ih]

theorem captionData_map_text (cs : List Str) :
    ∀ t, (captionData cs t).map Caption.text = cs := by
  induction cs with
  | nil => intro t; rfl
  | cons c cs ih => intro t; simp [captionData, ih]

theorem captionData_length (cs : List Str) :
    ∀ t, (captionData cs t).length = cs.length := by
  induction cs with
  | nil => intro t; rfl
  | cons c cs ih => intro t; simp [captionData, ih]

theorem captionData_get_start (cs : List Str) (t : ℚ)
    (h : 0 < (captionData cs t).length) :
    ((captionData cs t).get ⟨0, h⟩).start = t := by
  cases cs with
  | nil => simp [captionData] at h
  | cons c cs => rfl

theorem captionData_adjacent (cs : List Str) :
    ∀ (t : ℚ) (i : ℕ) (h : i + 1 < (captionData cs t).length),
      ((captionData cs t).get ⟨i, Nat.lt_of_succ_lt h⟩).«end» =
      ((captionData cs t).get ⟨i + 1, h⟩).start := by
  induction cs with
  | nil => intro t i h; simp [captionData] at h
  | cons c cs ih =>
    intro t i h
    cases i with
    | zero =>
      have h' : 0 < (captionData cs
          (t + ((splitWords c).length : ℚ) / words_per_second)).length := by
        have := h
        simp only [captionData, List.length_cons] at this
        omega
      show (⟨c, t, _, _⟩ : Caption).«end» =
        ((captionData cs (t + ((splitWords c).length : ℚ) / words_per_second)).get
          ⟨0, h'⟩).start
      rw [captionData_get_start]
    | succ i =>
      have h' : i + 1 < (captionData cs
          (t + ((splitWords c).length : ℚ) / words_per_second)).length := by
        have := h
        simp only [captionData, List.length_cons] at this
        omega
      exact ih _ i h'

theorem captionData_mem (cs : List Str) :
    ∀ t, ∀ cap ∈ captionData cs t,
      cap.duration = ((splitWords cap.text).length : ℚ) / words_per_second ∧
      cap.«end» = cap.start + cap.duration := by
  induction cs with
  | nil => intro t cap h; simp [captionData] at h
  | cons c cs ih =>
    intro t cap h
    rcases List.mem_cons.mp h with rfl | h'
    · exact ⟨rfl, rfl⟩
    · exact ih _ cap h'

theorem captionData_sum (cs : List Str) :
    ∀ t, ((captionData cs t).map Caption.duration).sum =
      (cs.map fun c => ((splitWords c).length : ℚ)).sum / words_per_second := by
  induction cs with
  | nil => intro t; simp [captionData]
  | cons c cs ih =>
    intro t
    simp [captionData, ih, add_div]

/-- Every chunk produced on the words of `script` consists of `GoodWord`s. -/
theorem segmentWords_good (k : Int) (S : Str) :
    ∀ ch ∈ segmentWords k [] (splitWords S), ∀ w ∈ ch, GoodWord w := by
  intro ch hch w hw
  have hmem : w ∈ (segmentWords k [] (splitWords S)).flatten :=
    List.mem_flatten.mpr ⟨ch, hch, hw⟩
  rw [segmentWords_flatten k (splitWords S) []] at hmem
  exact goodWord_splitWords w (by simpa using hmem)

end ContentGenerator

/-! ## Claims C2, C3, C7, C10: caption generation -/

open ContentGenerator

/-- The nine-word scenario script of the spec. -/
def fox : Str := ("the quick brown fox jumps over the lazy dog").toList

/-- The two caption segments the spec predicts for `fox` with
`words_per_caption = 5`. -/
def foxCaptions : List Caption :=
  [⟨("the quick brown fox jumps").toList, 0, 2, 2⟩,
   ⟨("over the lazy dog").toList, 2, 8 / 5, 18 / 5⟩]

/-- A script of `n` one-letter words. -/
def aWords (n : ℕ) : Str := joinWords (List.replicate n ['a'])

theorem splitWords_aWords (n : ℕ) : splitWords (aWords n) = List.replicate n ['a'] := by
  refine splitWords_joinWords _ ?_
  intro w hw
  rw [List.eq_of_mem_replicate hw]
  decide

/-- C2: for every script `S` and `words_per_caption k > 0`, joining the caption
texts with spaces and re-splitting on whitespace reconstructs the token
sequence of `S` exactly; every caption but possibly the last holds exactly `k`
words, the last between 1 and `k` (no empty caption, no split word); and the
empty script yields the empty caption list without error. -/
theorem C2_generate_captions_segmentation (S : Str) (k : Int) (hk : 0 < k) :
    splitWords (joinWords ((generate_captions S k).map Caption.text)) = splitWords S
    ∧ (∀ c ∈ (generate_captions S k).dropLast,
        ((splitWords c.text).length : Int) = k)
    ∧ (∀ c ∈ generate_captions S k,
        1 ≤ (splitWords c.text).length ∧ ((splitWords c.text).length : Int) ≤ k)
    ∧ (S = [] → generate_captions S k = []) := by
  have hz : ((([] : List Str).length : Int) < k) := by simpa using hk
  have hmem := segmentWords_mem k (splitWords S) [] hz
  have hgood := segmentWords_good k S
  have hne : ∀ ch ∈ segmentWords k [] (splitWords S), ch ≠ [] :=
    fun ch hch => (hmem ch hch).1
  have hsplit_chunk : ∀ ch ∈ segmentWords k [] (splitWords S),
      splitWords (joinWords ch) = ch :=
    fun ch hch => splitWords_joinWords ch (hgood ch hch)
  have htext : (generate_captions S k).map Caption.text =
      (segmentWords k [] (splitWords S)).map joinWords :=
    captionData_map_text _ 0
  refine ⟨?_, ?_, ?_, ?_⟩
  · rw [htext, joinWords_map_joinWords _ hne,
      segmentWords_flatten k (splitWords S) [], List.nil_append]
    exact splitWords_joinWords _ goodWord_splitWords
  · intro c hc
    have h1 : c.text ∈ ((generate_captions S k).map Caption.text).dropLast := by
      rw [← List.map_dropLast]
      exact List.mem_map_of_mem Caption.text hc
    rw [htext, ← List.map_dropLast] at h1
    rcases List.mem_map.mp h1 with ⟨ch, hch, htexteq⟩
    have hch' : ch ∈ segmentWords k [] (splitWords S) :=
      List.mem_of_mem_dropLast hch
    rw [← htexteq, hsplit_chunk ch hch']
    exact segmentWords_dropLast_len k (splitWords S) [] hz ch hch
  · intro c hc
    have h1 : c.text ∈ (generate_captions S k).map Caption.text :=
      List.mem_map_of_mem Caption.text hc
    rw [htext] at h1
    rcases List.mem_map.mp h1 with ⟨ch, hch, htexteq⟩
    rw [← htexteq, hsplit_chunk ch hch]
    refine ⟨?_, (hmem ch hch).2⟩
    exact List.length_pos.mpr (hne ch hch)
  · rintro rfl; rfl

/-- C2 witness at the nine-word scenario script with `k = 5`. -/
theorem C2_witness :
    splitWords (joinWords ((generate_captions fox 5).map Caption.text)) = splitWords fox
    ∧ 1 ≤ (splitWords (((generate_captions fox 5).get ⟨0, by decide⟩).text)).length :=
  ⟨(C2_generate_captions_segmentation fox 5 (by decide)).1,
   ((C2_generate_captions_segmentation fox 5 (by decide)).2.2.1 _
     (List.get_mem _ 0 (by decide))).1⟩

/-- C3: for every script and every `k > 0` the caption sequence starts at 0, is
contiguous and non-overlapping (`end i = start (i+1)`), each caption satisfies
`duration = word_count(text) / (150/60)` and `end = start + duration`; and the
nine-word scenario with `k = 5` yields exactly the two predicted segments
(durations 2.0 and 1.6, ends 2.0 and 3.6). -/
theorem C3_generate_captions_invariants (S : Str) (k : Int) (hk : 0 < k) :
    (∀ h : 0 < (generate_captions S k).length,
      ((generate_captions S k).get ⟨0, h⟩).start = 0)
    ∧ (∀ (i : ℕ) (h : i + 1 < (generate_captions S k).length),
        ((generate_captions S k).get ⟨i, Nat.lt_of_succ_lt h⟩).«end» =
        ((generate_captions S k).get ⟨i + 1, h⟩).start)
    ∧ (∀ cap ∈ generate_captions S k,
        cap.duration = ((splitWords cap.text).length : ℚ) / words_per_second ∧
        cap.«end» = cap.start + cap.duration)
    ∧ generate_captions fox 5 = foxCaptions := by
  refine ⟨?_, ?_, ?_, ?_⟩
  · intro h; exact captionData_get_start _ 0 h
  · intro i h; exact captionData_adjacent _ 0 i h
  · intro cap hcap; exact captionData_mem _ 0 cap hcap
  · have hsegs : generate_captions fox 5 =
        captionData [("the quick brown fox jumps").toList,
          ("over the lazy dog").toList] 0 := by
      rw [show generate_captions fox 5 =
        captionData ((segmentWords 5 [] (splitWords fox)).map joinWords) 0 from rfl]
      congr 1
    have e1 : (splitWords (("the quick brown fox jumps").toList)).length = 5 := by
      decide
    have e2 : (splitWords (("over the lazy dog").toList)).length = 4 := by decide
    rw [hsegs]
    simp only [captionData, foxCaptions, e1, e2, words_per_second]
    norm_num

/-- C3 witness at the nine-word scenario script with `k = 5`. -/
theorem C3_witness :
    ((generate_captions fox 5).get ⟨0, by decide⟩).start = 0
    ∧ ((generate_captions fox 5).get ⟨0, by decide⟩).«end» =
      ((generate_captions fox 5).get ⟨1, by decide⟩).start :=
  ⟨(C3_generate_captions_invariants fox 5 (by decide)).1 (by decide),
   (C3_generate_captions_invariants fox 5 (by decide)).2.1 0 (by decide)⟩

/-- C7: the 150-words-per-minute assumption is shared: for every script and
`k > 0` the caption durations sum to `word_count/150*60`, which is also the
estimate `optimize_for_platform` computes and the voice generator's
`estimate_duration` at speed 1. -/
theorem C7_shared_speaking_rate (S : Str) (k : Int) (hk : 0 < k) :
    ((generate_captions S k).map Caption.duration).sum =
      ((splitWords S).length : ℚ) / 150 * 60
    ∧ optimize_estimated_duration S = ((splitWords S).length : ℚ) / 150 * 60
    ∧ VoiceGenerator.estimate_duration S 1 = ((splitWords S).length : ℚ) / 150 * 60 := by
  refine ⟨?_, rfl, by simp [VoiceGenerator.estimate_duration]⟩
  rw [show generate_captions S k =
    captionData ((segmentWords k [] (splitWords S)).map joinWords) 0 from rfl]
  rw [captionData_sum]
  have hgood := segmentWords_good k S
  have hmap : ((segmentWords k [] (splitWords S)).map joinWords).map
      (fun c => ((splitWords c).length : ℚ)) =
      (segmentWords k [] (splitWords S)).map (fun ch => ((ch.length : ℕ) : ℚ)) := by
    rw [List.map_map]
    refine List.map_congr_left ?_
    intro ch hch
    simp only [Function.comp_apply]
    rw [splitWords_joinWords ch (hgood ch hch)]
  rw [hmap]
  have hsum : ((segmentWords k [] (splitWords S)).map
      (fun ch => ((ch.length : ℕ) : ℚ))).sum =
      (((segmentWords k [] (splitWords S)).map List.length).sum : ℕ) := by
    rw [Nat.cast_list_sum, List.map_map]
    rfl
  rw [hsum, ← List.length_flatten, segmentWords_flatten k (splitWords S) [],
    List.nil_append, words_per_second]
  have h150 : ((150 : ℚ) / 60) = 5 / 2 := by norm_num
  rw [h150]
  set n : ℚ := ((splitWords S).length : ℚ)
  ring

/-- C7 witness at the nine-word scenario script with `k = 5`. -/
theorem C7_witness :
    ((generate_captions fox 5).map Caption.duration).sum =
      ((splitWords fox).length : ℚ) / 150 * 60 :=
  (C7_shared_speaking_rate fox 5 (by decide)).1

/-- C10: for `words_per_caption ≤ 0` `generate_captions` is still total and
produces one single-word caption per word of the script, each with duration
`1/(150/60)` seconds, with the same contiguous timing as in the `k > 0` case. -/
theorem C10_generate_captions_nonpos (S : Str) (k : Int) (hk : k ≤ 0) :
    (generate_captions S k).map Caption.text = splitWords S
    ∧ (∀ cap ∈ generate_captions S k,
        (splitWords cap.text).length = 1 ∧
        cap.duration = 1 / words_per_second ∧
        cap.«end» = cap.start + cap.duration)
    ∧ (∀ h : 0 < (generate_captions S k).length,
        ((generate_captions S k).get ⟨0, h⟩).start = 0)
    ∧ (∀ (i : ℕ) (h : i + 1 < (generate_captions S k).length),
        ((generate_captions S k).get ⟨i, Nat.lt_of_succ_lt h⟩).«end» =
        ((generate_captions S k).get ⟨i + 1, h⟩).start) := by
  have htexts : (segmentWords k [] (splitWords S)).map joinWords = splitWords S := by
    rw [segmentWords_nonpos k hk]
    rw [List.map_map]
    have : (joinWords ∘ fun w => [w]) = id := by
      funext w; rfl
    rw [this, List.map_id]
  have hsingle : ∀ cap ∈ generate_captions S k, (splitWords cap.text).length = 1 := by
    intro cap hcap
    have h1 : cap.text ∈ (generate_captions S k).map Caption.text :=
      List.mem_map_of_mem Caption.text hcap
    rw [show generate_captions S k =
      captionData ((segmentWords k [] (splitWords S)).map joinWords) 0 from rfl,
      captionData_map_text, htexts] at h1
    have hg := goodWord_splitWords cap.text h1
    have : splitWords (joinWords [cap.text]) = [cap.text] :=
      splitWords_joinWords [cap.text] (by intro w hw; simp at hw; exact hw ▸ hg)
    have hjw : joinWords [cap.text] = cap.text := rfl
    rw [hjw] at this
    simp [this]
  refine ⟨?_, ?_, ?_, ?_⟩
  · rw [show generate_captions S k =
      captionData ((segmentWords k [] (splitWords S)).map joinWords) 0 from rfl,
      captionData_map_text, htexts]
  · intro cap hcap
    have hm := captionData_mem _ 0 cap hcap
    refine ⟨hsingle cap hcap, ?_, hm.2⟩
    rw [hm.1, hsingle cap hcap]
    norm_num
  · intro h; exact captionData_get_start _ 0 h
  · intro i h; exact captionData_adjacent _ 0 i h

/-- C10 witness at the script `"a b c"` with `k = -2`. -/
theorem C10_witness :
    (generate_captions (("a b c").toList) (-2)).map Caption.text =
      splitWords (("a b c").toList) :=
  (C10_generate_captions_nonpos (("a b c").toList) (-2) (by decide)).1

/-! ## Claims C1, C4: platform optimization -/

theorem optimize_keeps (S : Str) (p : String) (lim : Limits)
    (hp : platform_limits p = some lim)
    (hle : optimize_estimated_duration S ≤ (lim.optimal_duration : ℚ)) :
    optimize_for_platform S p = S := by
  simp only [optimize_for_platform, hp]
  rw [if_pos hle]

theorem target_words_le (lim : Limits) :
    ((target_words lim : ℕ) : ℚ) ≤ (lim.optimal_duration : ℚ) * 150 / 60 := by
  have h0 : (0 : ℚ) ≤ (lim.optimal_duration : ℚ) / 60 * 150 := by positivity
  have hfl : (0 : ℤ) ≤ ⌊(lim.optimal_duration : ℚ) / 60 * 150⌋ :=
    Int.floor_nonneg.mpr h0
  have hcast : ((target_words lim : ℕ) : ℚ) =
      ((⌊(lim.optimal_duration : ℚ) / 60 * 150⌋ : ℤ) : ℚ) := by
    rw [target_words]
    exact_mod_cast congrArg (fun z : ℤ => (z : ℚ)) (Int.toNat_of_nonneg hfl)
  rw [hcast]
  calc ((⌊(lim.optimal_duration : ℚ) / 60 * 150⌋ : ℤ) : ℚ)
      ≤ (lim.optimal_duration : ℚ) / 60 * 150 := Int.floor_le _
    _ = (lim.optimal_duration : ℚ) * 150 / 60 := by ring

theorem optimize_truncates (S : Str) (p : String) (lim : Limits)
    (hp : platform_limits p = some lim)
    (hgt : (lim.optimal_duration : ℚ) < optimize_estimated_duration S) :
    target_words lim < (splitWords S).length ∧
    optimize_for_platform S p =
      joinWords ((splitWords S).take (target_words lim) ++ [ellipsis]) := by
  have hlt : target_words lim < (splitWords S).length := by
    have h1 : (lim.optimal_duration : ℚ) * 150 / 60 < ((splitWords S).length : ℚ) := by
      rw [optimize_estimated_duration] at hgt
      linarith
    have h2 : ((target_words lim : ℕ) : ℚ) < ((splitWords S).length : ℚ) :=
      lt_of_le_of_lt (target_words_le lim) h1
    exact_mod_cast h2
  refine ⟨hlt, ?_⟩
  simp only [optimize_for_platform, hp]
  rw [if_neg (not_le.mpr hgt)]
  have hlen : ((splitWords S).take (target_words lim)).length <
      (splitWords S).length := by
    rw [List.length_take]; omega
  show joinWords (if ((splitWords S).take (target_words lim)).length <
      (splitWords S).length then (splitWords S).take (target_words lim) ++ [ellipsis]
    else (splitWords S).take (target_words lim)) = _
  rw [if_pos hlen]

/-- Splitting the truncated-and-marked script recovers the truncated words plus
the marker token. -/
theorem splitWords_trunc (S : Str) (n : ℕ) :
    splitWords (joinWords ((splitWords S).take n ++ [ellipsis])) =
      (splitWords S).take n ++ [ellipsis] := by
  refine splitWords_joinWords _ ?_
  intro w hw
  rcases List.mem_append.mp hw with h | h
  · exact goodWord_splitWords w (List.mem_of_mem_take h)
  · simp only [List.mem_singleton] at h
    subst h
    decide

theorem estimated_duration_trunc (S : Str) (lim : Limits)
    (hlt : target_words lim < (splitWords S).length) :
    optimize_estimated_duration
        (joinWords ((splitWords S).take (target_words lim) ++ [ellipsis])) =
      ((target_words lim : ℕ) + 1 : ℚ) / 150 * 60 := by
  rw [optimize_estimated_duration, splitWords_trunc]
  rw [List.length_append, List.length_take, List.length_singleton,
    Nat.min_eq_left (le_of_lt hlt)]
  push_cast
  ring

/-- C1 (amended): the re-estimated speaking time of the optimized script can
exceed `optimal_duration` by at most the speaking time of the appended
ellipsis marker, `60/150` s; and a script already within the limit is returned
unchanged. -/
theorem C1_optimize_duration_bound (S : Str) (p : String) (lim : Limits)
    (hp : platform_limits p = some lim) :
    optimize_estimated_duration (optimize_for_platform S p) ≤
      (lim.optimal_duration : ℚ) + 60 / 150
    ∧ (optimize_estimated_duration S ≤ (lim.optimal_duration : ℚ) →
        optimize_for_platform S p = S) := by
  by_cases hle : optimize_estimated_duration S ≤ (lim.optimal_duration : ℚ)
  · have heq := optimize_keeps S p lim hp hle
    refine ⟨?_, fun _ => heq⟩
    rw [heq]
    linarith
  · push_neg at hle
    obtain ⟨hlt, heq⟩ := optimize_truncates S p lim hp hle
    refine ⟨?_, fun h => absurd h (not_le.mpr hle)⟩
    rw [heq, estimated_duration_trunc S lim hlt]
    have htw := target_words_le lim
    set T := ((target_words lim : ℕ) : ℚ)
    set O := (lim.optimal_duration : ℚ)
    linarith

theorem target_words_youtube : target_words ⟨60, 45⟩ = 112 := by
  have h1 : (((⟨60, 45⟩ : Limits).optimal_duration : ℕ) : ℚ) / 60 * 150 = 225 / 2 := by
    norm_num
  rw [target_words, h1]
  have h2 : ⌊(225 / 2 : ℚ)⌋ = 112 := by
    rw [Int.floor_eq_iff]
    norm_num
  rw [h2]
  rfl

/-- C1 counterexample: the claim "the estimated speaking time of the optimized
script never exceeds the platform's optimal duration" is false: a 113-word
script optimized for youtube (optimal 45 s) re-estimates to 45.2 s, because
the appended "..." marker counts as an additional word. -/
theorem C1_counterexample :
    ¬ (optimize_estimated_duration
        (optimize_for_platform (aWords 113) "youtube") ≤ 45) := by
  have hp : platform_limits "youtube" = some ⟨60, 45⟩ := by decide
  have hgt : (((⟨60, 45⟩ : Limits).optimal_duration : ℕ) : ℚ) <
      optimize_estimated_duration (aWords 113) := by
    rw [optimize_estimated_duration, splitWords_aWords, List.length_replicate]
    norm_num
  obtain ⟨hlt, heq⟩ := optimize_truncates _ _ _ hp hgt
  rw [heq, estimated_duration_trunc _ _ hlt, target_words_youtube]
  norm_num

/-- C1 witness for the amended bound and the unchanged-script case. -/
theorem C1_witness :
    optimize_estimated_duration (optimize_for_platform (aWords 113) "youtube") ≤
      ((45 : ℕ) : ℚ) + 60 / 150
    ∧ optimize_for_platform (aWords 10) "youtube" = aWords 10 :=
  ⟨(C1_optimize_duration_bound (aWords 113) "youtube" ⟨60, 45⟩ (by decide)).1,
   (C1_optimize_duration_bound (aWords 10) "youtube" ⟨60, 45⟩ (by decide)).2
     (by norm_num [optimize_estimated_duration, splitWords_aWords])⟩

/-- C4: when the estimate exceeds the platform's optimal duration the script is
truncated to the first `int(optimal_duration/60*150)` words plus an ellipsis
marker; an unknown platform returns the script unchanged without error; for
youtube the budget is 112 words and a 200-word script becomes 112 words plus
the marker. -/
theorem C4_optimize_truncation :
    (∀ (S : Str) (p : String) (lim : Limits), platform_limits p = some lim →
      (lim.optimal_duration : ℚ) < optimize_estimated_duration S →
      optimize_for_platform S p =
        joinWords ((splitWords S).take (target_words lim) ++ [ellipsis]))
    ∧ (∀ (S : Str) (p : String), platform_limits p = none →
        optimize_for_platform S p = S)
    ∧ target_words ⟨60, 45⟩ = 112
    ∧ splitWords (optimize_for_platform (aWords 200) "youtube") =
        List.replicate 112 ['a'] ++ [ellipsis] := by
  refine ⟨fun S p lim hp hgt => (optimize_truncates S p lim hp hgt).2,
    ?_, target_words_youtube, ?_⟩
  · intro S p hp
    simp [optimize_for_platform, hp]
  · have hp : platform_limits "youtube" = some ⟨60, 45⟩ := by decide
    have hgt : (((⟨60, 45⟩ : Limits).optimal_duration : ℕ) : ℚ) <
        optimize_estimated_duration (aWords 200) := by
      rw [optimize_estimated_duration, splitWords_aWords, List.length_replicate]
      norm_num
    obtain ⟨hlt, heq⟩ := optimize_truncates _ _ _ hp hgt
    rw [heq, splitWords_trunc, splitWords_aWords, target_words_youtube,
      List.take_replicate]
    rfl

/-- C4 witness at the 200-word script for youtube and an unknown platform. -/
theorem C4_witness :
    optimize_for_platform (aWords 200) "youtube" =
      joinWords ((splitWords (aWords 200)).take (target_words ⟨60, 45⟩) ++ [ellipsis])
    ∧ optimize_for_platform (("hello world").toList) "twitter" =
        ("hello world").toList :=
  ⟨C4_optimize_truncation.1 (aWords 200) "youtube" ⟨60, 45⟩ (by decide)
     (by norm_num [optimize_estimated_duration, splitWords_aWords]),
   C4_optimize_truncation.2.1 (("hello world").toList) "twitter" (by decide)⟩

/-! ## Claim C5: background preparation -/

namespace VideoAssembler

theorem ratio_bound_wide (h : ℕ) (hh : 0 < h) :
    |(((⌊(h : ℚ) * aspect_ratio⌋).toNat : ℕ) : ℚ) / (h : ℚ) - 9 / 16|
      < 1 / (h : ℚ) := by
  have hhq : (0 : ℚ) < (h : ℚ) := by exact_mod_cast hh
  have hx : (0 : ℚ) ≤ (h : ℚ) * aspect_ratio := by
    rw [aspect_ratio]; positivity
  have hfl : (0 : ℤ) ≤ ⌊(h : ℚ) * aspect_ratio⌋ := Int.floor_nonneg.mpr hx
  have hcweq : (((⌊(h : ℚ) * aspect_ratio⌋).toNat : ℕ) : ℚ) =
      ((⌊(h : ℚ) * aspect_ratio⌋ : ℤ) : ℚ) := by
    exact_mod_cast congrArg (fun z : ℤ => (z : ℚ)) (Int.toNat_of_nonneg hfl)
  have h1 : ((⌊(h : ℚ) * aspect_ratio⌋ : ℤ) : ℚ) ≤ (h : ℚ) * (9 / 16) := by
    calc ((⌊(h : ℚ) * aspect_ratio⌋ : ℤ) : ℚ) ≤ (h : ℚ) * aspect_ratio :=
          Int.floor_le _
      _ = (h : ℚ) * (9 / 16) := by rw [aspect_ratio]
  have h2 : (h : ℚ) * (9 / 16) < ((⌊(h : ℚ) * aspect_ratio⌋ : ℤ) : ℚ) + 1 := by
    calc (h : ℚ) * (9 / 16) = (h : ℚ) * aspect_ratio := by rw [aspect_ratio]
      _ < (⌊(h : ℚ) * aspect_ratio⌋ : ℚ) + 1 := Int.lt_floor_add_one _
  rw [hcweq]
  generalize hgen : ((⌊(h : ℚ) * aspect_ratio⌋ : ℤ) : ℚ) = cw at h1 h2 ⊢
  have hc : ((h : ℚ) * (9 / 16)) / (h : ℚ) = 9 / 16 :=
    mul_div_cancel_left₀ _ (ne_of_gt hhq)
  rw [abs_sub_lt_iff]
  constructor
  · calc cw / (h : ℚ) - 9 / 16
        = cw / (h : ℚ) - ((h : ℚ) * (9 / 16)) / (h : ℚ) := by rw [hc]
      _ = (cw - (h : ℚ) * (9 / 16)) / (h : ℚ) := (sub_div _ _ _).symm
      _ < 1 / (h : ℚ) := by
          rw [div_lt_div_iff_of_pos_right hhq]; linarith
  · calc (9 : ℚ) / 16 - cw / (h : ℚ)
        = ((h : ℚ) * (9 / 16)) / (h : ℚ) - cw / (h : ℚ) := by rw [hc]
      _ = ((h : ℚ) * (9 / 16) - cw) / (h : ℚ) := (sub_div _ _ _).symm
      _ < 1 / (h : ℚ) := by
          rw [div_lt_div_iff_of_pos_right hhq]; linarith

theorem ratio_bound_tall (w : ℕ) (hw : 0 < w) :
    0 < (⌊(w : ℚ) / aspect_ratio⌋).toNat ∧
    |((w : ℚ)) / (((⌊(w : ℚ) / aspect_ratio⌋).toNat : ℕ) : ℚ) - 9 / 16|
      < 1 / (((⌊(w : ℚ) / aspect_ratio⌋).toNat : ℕ) : ℚ) := by
  have hwq : (1 : ℚ) ≤ (w : ℚ) := by exact_mod_cast hw
  have hx : (1 : ℚ) ≤ (w : ℚ) / aspect_ratio := by
    rw [aspect_ratio, le_div_iff₀ (by norm_num : (0 : ℚ) < 9 / 16)]
    linarith
  have hfl1 : (1 : ℤ) ≤ ⌊(w : ℚ) / aspect_ratio⌋ :=
    Int.le_floor.mpr (by exact_mod_cast hx)
  have hpos : 0 < (⌊(w : ℚ) / aspect_ratio⌋).toNat := by omega
  have hcheq : (((⌊(w : ℚ) / aspect_ratio⌋).toNat : ℕ) : ℚ) =
      ((⌊(w : ℚ) / aspect_ratio⌋ : ℤ) : ℚ) := by
    exact_mod_cast congrArg (fun z : ℤ => (z : ℚ))
      (Int.toNat_of_nonneg (by omega))
  have hchpos : (0 : ℚ) < ((⌊(w : ℚ) / aspect_ratio⌋ : ℤ) : ℚ) := by
    exact_mod_cast lt_of_lt_of_le Int.zero_lt_one hfl1
  have hconv : (w : ℚ) / aspect_ratio = (w : ℚ) * (16 / 9) := by
    rw [aspect_ratio]; ring
  have h1 : ((⌊(w : ℚ) / aspect_ratio⌋ : ℤ) : ℚ) ≤ (w : ℚ) * (16 / 9) := by
    rw [← hconv]; exact Int.floor_le _
  have h2 : (w : ℚ) * (16 / 9) < ((⌊(w : ℚ) / aspect_ratio⌋ : ℤ) : ℚ) + 1 := by
    rw [← hconv]; exact Int.lt_floor_add_one _
  refine ⟨hpos, ?_⟩
  rw [hcheq]
  generalize hgen : ((⌊(w : ℚ) / aspect_ratio⌋ : ℤ) : ℚ) = ch at h1 h2 hchpos ⊢
  have hc : (ch * (9 / 16)) / ch = 9 / 16 :=
    mul_div_cancel_left₀ _ (ne_of_gt hchpos)
  rw [abs_sub_lt_iff]
  constructor
  · calc (w : ℚ) / ch - 9 / 16
        = (w : ℚ) / ch - (ch * (9 / 16)) / ch := by rw [hc]
      _ = ((w : ℚ) - ch * (9 / 16)) / ch := (sub_div _ _ _).symm
      _ < 1 / ch := by
          rw [div_lt_div_iff_of_pos_right hchpos]; nlinarith
  · calc (9 : ℚ) / 16 - (w : ℚ) / ch
        = (ch * (9 / 16)) / ch - (w : ℚ) / ch := by rw [hc]
      _ = (ch * (9 / 16) - (w : ℚ)) / ch := (sub_div _ _ _).symm
      _ < 1 / ch := by
          rw [div_lt_div_iff_of_pos_right hchpos]; nlinarith

theorem looped_duration_ge (native target : ℚ) (hn : 0 < native) :
    target ≤ looped_duration native target := by
  rw [looped_duration]
  split
  · next hlt =>
    have hdiv := Int.lt_floor_add_one (target / native)
    have hm : target / native * native < ((⌊target / native⌋ : ℚ) + 1) * native :=
      mul_lt_mul_of_pos_right hdiv hn
    rw [div_mul_cancel₀ _ (ne_of_gt hn)] at hm
    linarith
  · next hge => linarith [not_lt.mp hge]

theorem looped_duration_whole (native target : ℚ) (hn : 0 < native)
    (ht : 0 < target) (hlt : native < target) :
    ∃ n : ℤ, 0 < n ∧ looped_duration native target = native * (n : ℚ) := by
  refine ⟨⌊target / native⌋ + 1, ?_, ?_⟩
  · have hdp : (0 : ℚ) < target / native := div_pos ht hn
    have := Int.floor_nonneg.mpr (le_of_lt hdp)
    omega
  · rw [looped_duration, if_pos hlt]
    push_cast
    ring

end VideoAssembler

open VideoAssembler

/-- C5: for every source clip with positive dimensions and duration and every
positive target duration, `_prepare_background` crops to a width/height ratio
equal to 9/16 within rounding tolerance (wider sources keep `h` and crop the
width to `int(h * 9/16)`; others keep `w` and crop the height to
`int(w * 16/9)`), resizes to 1080x1920, and the result's duration equals the
target exactly: short clips are looped a whole positive number of times to
cover the target, longer ones are trimmed. -/
theorem C5_prepare_background (c : Clip) (d : ℚ) (hw : 0 < c.w) (hh : 0 < c.h)
    (hnd : 0 < c.duration) (hd : 0 < d) :
    (prepare_background c d).duration = d
    ∧ (prepare_background c d).w = 1080
    ∧ (prepare_background c d).h = 1920
    ∧ 0 < (crop_dims c.w c.h).2
    ∧ |((crop_dims c.w c.h).1 : ℚ) / ((crop_dims c.w c.h).2 : ℚ) - 9 / 16|
        < 1 / ((crop_dims c.w c.h).2 : ℚ)
    ∧ ((c.w : ℚ) / (c.h : ℚ) > 9 / 16 →
        crop_dims c.w c.h = ((⌊(c.h : ℚ) * (9 / 16)⌋).toNat, c.h)
        ∧ crop_center c.w c.h = (some ((c.w : ℚ) / 2), none))
    ∧ (¬((c.w : ℚ) / (c.h : ℚ) > 9 / 16) →
        crop_dims c.w c.h = (c.w, (⌊(c.w : ℚ) * (16 / 9)⌋).toNat)
        ∧ crop_center c.w c.h = (none, some ((c.h : ℚ) / 2)))
    ∧ d ≤ looped_duration c.duration d
    ∧ (c.duration < d →
        ∃ n : ℤ, 0 < n ∧ looped_duration c.duration d = c.duration * (n : ℚ))
    ∧ (d ≤ c.duration → looped_duration c.duration d = c.duration) := by
  have hconv : (c.w : ℚ) / aspect_ratio = (c.w : ℚ) * (16 / 9) := by
    rw [aspect_ratio]; ring
  have haspect : aspect_ratio = 9 / 16 := rfl
  refine ⟨rfl, rfl, rfl, ?_, ?_, ?_, ?_, looped_duration_ge _ _ hnd,
    fun hlt => looped_duration_whole _ _ hnd hd hlt, ?_⟩
  · rw [crop_dims]
    split
    · exact hh
    · exact (ratio_bound_tall c.w hw).1
  · rw [crop_dims]
    split
    · exact ratio_bound_wide c.h hh
    · exact (ratio_bound_tall c.w hw).2
  · intro hwide
    constructor
    · rw [crop_dims, if_pos (by rw [haspect]; exact hwide), haspect]
    · rw [crop_center, if_pos (by rw [haspect]; exact hwide)]
  · intro hnarrow
    constructor
    · rw [crop_dims, if_neg (by rw [haspect]; exact hnarrow), hconv]
    · rw [crop_center, if_neg (by rw [haspect]; exact hnarrow)]
  · intro hge
    rw [looped_duration, if_neg (not_lt.mpr hge)]

/-- C5 witness at a 1920x1080 five-second clip and a 12-second target. -/
theorem C5_witness :
    (prepare_background ⟨1920, 1080, 5⟩ 12).duration = 12
    ∧ (prepare_background ⟨1920, 1080, 5⟩ 12).w = 1080
    ∧ (prepare_background ⟨1920, 1080, 5⟩ 12).h = 1920 :=
  ⟨(C5_prepare_background ⟨1920, 1080, 5⟩ 12 (by decide) (by decide)
      (by norm_num) (by norm_num)).1,
   (C5_prepare_background ⟨1920, 1080, 5⟩ 12 (by decide) (by decide)
      (by norm_num) (by norm_num)).2.1,
   (C5_prepare_background ⟨1920, 1080, 5⟩ 12 (by decide) (by decide)
      (by norm_num) (by norm_num)).2.2.1⟩

/-! ## Claim C6: fallback artifact on encoding failure -/

namespace Agents

/-- The part of the fallback text before the script (lines 309-310). -/
def fbHeader : Str :=
  ("🧠 BRAINROT RESEARCH VIDEO SCRIPT 🧠\n").toList ++ eqBar ++ ("\n\n").toList

/-- The part of the fallback text after the script (lines 312-317). -/
def fbTail (s : ScriptDict) : Str :=
  ("\n\n").toList ++ eqBar ++ ("\n").toList
  ++ ("Duration: ").toList ++ (toString s.duration).toList ++ (" seconds\n").toList
  ++ ("Style: ").toList ++ s.style ++ ("\n").toList
  ++ ("\nVisual Cues:\n").toList
  ++ enumerateCues 1 s.visual_cues

theorem fallback_content_eq (s : ScriptDict) :
    fallback_content s = (fbHeader ++ s.script) ++ fbTail s := by
  simp [fallback_content, fbHeader, fbTail, List.append_assoc]

theorem fbTail_enum (s : ScriptDict) :
    ∃ u : Str, fbTail s = u ++ enumerateCues 1 s.visual_cues :=
  ⟨("\n\n").toList ++ eqBar ++ ("\n").toList
    ++ ("Duration: ").toList ++ (toString s.duration).toList ++ (" seconds\n").toList
    ++ ("Style: ").toList ++ s.style ++ ("\n").toList
    ++ ("\nVisual Cues:\n").toList, rfl⟩

theorem occursIn_enumerateCues :
    ∀ (cues : List Str) (n j : ℕ) (h : j < cues.length),
      OccursIn (cueLine (n + j) (cues.get ⟨j, h⟩)) (enumerateCues n cues) := by
  intro cues
  induction cues with
  | nil => intro n j h; simp at h
  | cons c cs ih =>
    intro n j h
    cases j with
    | zero =>
      exact ⟨[], enumerateCues (n + 1) cs, by simp [enumerateCues]⟩
    | succ j =>
      have h' : j < cs.length := by simpa using h
      have hrec := ih (n + 1) j h'
      have hidx : n + 1 + j = n + (j + 1) := by omega
      rw [hidx] at hrec
      rw [show (c :: cs).get ⟨j + 1, h⟩ = cs.get ⟨j, h'⟩ from rfl]
      rw [show enumerateCues n (c :: cs) =
        cueLine n c ++ enumerateCues (n + 1) cs from rfl]
      exact occursIn_append_left _ hrec

end Agents

open Agents

/-- C6: when video encoding fails, `_create_video_with_text` writes a plain-text
`_detailed_script.txt` fallback (not an `.mp4`) whose contents include the
literal script text, a "Duration: 90 seconds" line (the duration
`generate_script` always sets to 90), the style tag and the enumerated
visual-cue lines, and returns that fallback path. -/
theorem C6_fallback_artifact :
    (∀ t : Str, (generate_script t).duration = 90)
    ∧ (∀ s : ScriptDict, OccursIn s.script (fallback_content s))
    ∧ (∀ t : Str, OccursIn (("Duration: 90 seconds\n").toList)
        (fallback_content (generate_script t)))
    ∧ (∀ t : Str, OccursIn (("Style: detailed_brainrot\n").toList)
        (fallback_content (generate_script t)))
    ∧ (∀ (s : ScriptDict) (j : ℕ) (h : j < s.visual_cues.length),
        OccursIn (cueLine (j + 1) (s.visual_cues.get ⟨j, h⟩))
          (fallback_content s))
    ∧ (∀ s : ScriptDict,
        create_video_with_text s (("output/brainrot_video.mp4").toList) true =
          ((("output/brainrot_video_detailed_script.txt").toList),
           some ((("output/brainrot_video_detailed_script.txt").toList),
             fallback_content s))) := by
  refine ⟨fun t => rfl, ?_, ?_, ?_, ?_, ?_⟩
  · intro s
    exact ⟨fbHeader, fbTail s, fallback_content_eq s⟩
  · intro t
    have hconst : fbTail (generate_script t) = fbTail (generate_script []) := rfl
    have htail : OccursIn (("Duration: 90 seconds\n").toList)
        (fbTail (generate_script t)) := by
      rw [hconst]
      exact (containsPat_iff _ _).mp (by decide)
    rw [fallback_content_eq]
    exact occursIn_append_left _ htail
  · intro t
    have hconst : fbTail (generate_script t) = fbTail (generate_script []) := rfl
    have htail : OccursIn (("Style: detailed_brainrot\n").toList)
        (fbTail (generate_script t)) := by
      rw [hconst]
      exact (containsPat_iff _ _).mp (by decide)
    rw [fallback_content_eq]
    exact occursIn_append_left _ htail
  · intro s j h
    have henum := occursIn_enumerateCues s.visual_cues 1 j h
    rw [Nat.add_comm 1 j] at henum
    obtain ⟨u, hu⟩ := fbTail_enum s
    rw [fallback_content_eq, hu]
    rw [show (fbHeader ++ s.script) ++ (u ++ enumerateCues 1 s.visual_cues) =
      ((fbHeader ++ s.script) ++ u) ++ enumerateCues 1 s.visual_cues from by
        simp [List.append_assoc]]
    exact occursIn_append_left _ henum
  · intro s
    have hfp : replaceAllChars ((".mp4").toList)
        (("_detailed_script.txt").toList)
        (("output/brainrot_video.mp4").toList) =
        ("output/brainrot_video_detailed_script.txt").toList := by decide
    simp only [create_video_with_text, if_pos, hfp]

/-- C6 witness: the duration field and the first enumerated cue line at a
concrete script. -/
theorem C6_witness :
    (generate_script (("hi").toList)).duration = 90
    ∧ OccursIn (cueLine 1 (("brain explosion with fire effects").toList))
        (fallback_content (generate_script (("hi").toList))) :=
  ⟨C6_fallback_artifact.1 (("hi").toList),
   C6_fallback_artifact.2.2.2.2.1 (generate_script (("hi").toList)) 0
     (by decide)⟩

/-! ## Claim C8: retry behaviour of `generate_summary` -/

/-- C8 (code bug evidence): the internal `try/except` of `generate_summary`
swallows every service exception, so tenacity's
`@retry(stop=stop_after_attempt(3))` never observes a failure: exactly one
service invocation is made for every service behaviour, and a service that
fails once and then succeeds yields `None` — whereas the retry decorator
applied to the raw service call would succeed on the second invocation. -/
theorem C8_retry_never_fires :
    Retry.generate_summary Retry.failThenSucceed = (Except.ok none, 1)
    ∧ Retry.retryCall Retry.failThenSucceed 3 0 = (Except.ok (), 2)
    ∧ (∀ (E C : Type) (svc : ℕ → Except E C), (Retry.generate_summary svc).2 = 1) := by
  refine ⟨rfl, rfl, ?_⟩
  intro E C svc
  show (Retry.retryCall (Retry.generate_summary_body svc) 3 0).2 = 1
  cases hsvc : svc 0 <;>
    simp [Retry.retryCall, Retry.generate_summary_body, hsvc]

/-! ## Claim C9: `_clean_text` lemmas -/

namespace PDFProcessor

theorem not_occursIn_nil {α : Type} (c : α) (p : List α) :
    ¬ OccursIn (c :: p) ([] : List α) := by
  rintro ⟨l, r, h⟩
  cases l <;> simp at h

theorem collapseNewlines_le (s : Str) :
    (collapseNewlines s).length ≤ s.length := by
  induction s using collapseNewlines.induct with
  | case1 rest ih => simp only [collapseNewlines, List.length_cons]; omega
  | case2 c rest h ih =>
    rw [collapseNewlines.eq_2 c rest h]
    simp only [List.length_cons]; omega
  | case3 => simp [collapseNewlines]

theorem collapseNewlines_lt (s : Str) (hocc : OccursIn NNN s) :
    (collapseNewlines s).length < s.length := by
  induction s using collapseNewlines.induct with
  | case1 rest ih =>
    have := collapseNewlines_le rest
    simp only [collapseNewlines, List.length_cons]
    omega
  | case2 c rest h ih =>
    rw [collapseNewlines.eq_2 c rest h]
    rcases (occursIn_cons_iff NNN rest c).mp hocc with ⟨r, hr⟩ | hocc'
    · exfalso
      rw [show NNN ++ r = '\n' :: '\n' :: '\n' :: r from rfl] at hr
      injection hr with h1 h2
      exact h r h1 h2
    · have := ih hocc'
      simp only [List.length_cons]
      omega
  | case3 => exact absurd hocc (not_occursIn_nil _ _)

theorem collapseSpaces_le (s : Str) :
    (collapseSpaces s).length ≤ s.length := by
  induction s using collapseSpaces.induct with
  | case1 rest ih => simp only [collapseSpaces, List.length_cons]; omega
  | case2 c rest h ih =>
    rw [collapseSpaces.eq_2 c rest h]
    simp only [List.length_cons]; omega
  | case3 => simp [collapseSpaces]

theorem collapseSpaces_lt (s : Str) (hocc : OccursIn SS s) :
    (collapseSpaces s).length < s.length := by
  induction s using collapseSpaces.induct with
  | case1 rest ih =>
    have := collapseSpaces_le rest
    simp only [collapseSpaces, List.length_cons]
    omega
  | case2 c rest h ih =>
    rw [collapseSpaces.eq_2 c rest h]
    rcases (occursIn_cons_iff SS rest c).mp hocc with ⟨r, hr⟩ | hocc'
    · exfalso
      rw [show SS ++ r = ' ' :: ' ' :: r from rfl] at hr
      injection hr with h1 h2
      exact h r h1 h2
    · have := ih hocc'
      simp only [List.length_cons]
      omega
  | case3 => exact absurd hocc (not_occursIn_nil _ _)

theorem newlinesLoop_no (f : ℕ) :
    ∀ s : Str, s.length ≤ f → ¬ OccursIn NNN (newlinesLoop f s) := by
  induction f with
  | zero =>
    intro s hs
    have : s = [] := List.eq_nil_of_length_eq_zero (Nat.le_zero.mp hs)
    subst this
    exact not_occursIn_nil _ _
  | succ f ih =>
    intro s hs
    show ¬ OccursIn NNN
      (if containsPat NNN s then newlinesLoop f (collapseNewlines s) else s)
    by_cases hc : containsPat NNN s
    · rw [if_pos hc]
      have hlt := collapseNewlines_lt s ((containsPat_iff _ _).mp hc)
      exact ih (collapseNewlines s) (by omega)
    · rw [if_neg hc]
      intro hocc
      exact hc ((containsPat_iff _ _).mpr hocc)

theorem spacesLoop_no (f : ℕ) :
    ∀ s : Str, s.length ≤ f → ¬ OccursIn SS (spacesLoop f s) := by
  induction f with
  | zero =>
    intro s hs
    have : s = [] := List.eq_nil_of_length_eq_zero (Nat.le_zero.mp hs)
    subst this
    exact not_occursIn_nil _ _
  | succ f ih =>
    intro s hs
    show ¬ OccursIn SS
      (if containsPat SS s then spacesLoop f (collapseSpaces s) else s)
    by_cases hc : containsPat SS s
    · rw [if_pos hc]
      have hlt := collapseSpaces_lt s ((containsPat_iff _ _).mp hc)
      exact ih (collapseSpaces s) (by omega)
    · rw [if_neg hc]
      intro hocc
      exact hc ((containsPat_iff _ _).mpr hocc)

/-- A non-space head of `collapseSpaces rest` is the untouched head of
`rest`. -/
theorem collapseSpaces_cons_ne (d : Char) (hd : d ≠ ' ') :
    ∀ (rest tail : Str), collapseSpaces rest = d :: tail →
      ∃ rest', rest = d :: rest' ∧ tail = collapseSpaces rest' := by
  intro rest
  induction rest using collapseSpaces.induct with
  | case1 r ih =>
    intro tail h
    simp only [collapseSpaces] at h
    injection h with h1 h2
    exact absurd h1.symm hd
  | case2 c r hno ih =>
    intro tail h
    rw [collapseSpaces.eq_2 c r hno] at h
    injection h with h1 h2
    exact ⟨r, by rw [h1], h2.symm⟩
  | case3 =>
    intro tail h
    simp [collapseSpaces] at h

theorem collapseSpaces_preserves_no_NNN (s : Str) (hno : ¬ OccursIn NNN s) :
    ¬ OccursIn NNN (collapseSpaces s) := by
  induction s using collapseSpaces.induct with
  | case1 rest ih =>
    intro hocc
    simp only [collapseSpaces] at hocc
    rcases (occursIn_cons_iff _ _ _).mp hocc with ⟨r, hr⟩ | hocc'
    · rw [show NNN ++ r = '\n' :: '\n' :: '\n' :: r from rfl] at hr
      injection hr with h1 h2
      exact absurd h1 (by decide)
    · have hrest : ¬ OccursIn NNN rest := by
        intro hx
        exact hno (occursIn_cons_of _ (occursIn_cons_of _ hx))
      exact (ih hrest) hocc'
  | case2 c rest hnomatch ih =>
    intro hocc
    rw [collapseSpaces.eq_2 c rest hnomatch] at hocc
    rcases (occursIn_cons_iff _ _ _).mp hocc with ⟨r, hr⟩ | hocc'
    · rw [show NNN ++ r = '\n' :: '\n' :: '\n' :: r from rfl] at hr
      injection hr with h1 h2
      obtain ⟨r1, hr1, ht1⟩ := collapseSpaces_cons_ne '\n' (by decide) rest _ h2
      obtain ⟨r2, hr2, ht2⟩ := collapseSpaces_cons_ne '\n' (by decide) r1 _ ht1.symm
      apply hno
      refine ⟨[], r2, ?_⟩
      rw [h1, hr1, hr2]
      rfl
    · have hrest : ¬ OccursIn NNN rest := fun hx => hno (occursIn_cons_of _ hx)
      exact (ih hrest) hocc'
  | case3 =>
    intro hocc
    simp only [collapseSpaces] at hocc
    exact not_occursIn_nil _ _ hocc

theorem spacesLoop_preserves_no_NNN (f : ℕ) :
    ∀ s : Str, ¬ OccursIn NNN s → ¬ OccursIn NNN (spacesLoop f s) := by
  induction f with
  | zero => intro s h; exact h
  | succ f ih =>
    intro s h
    show ¬ OccursIn NNN
      (if containsPat SS s then spacesLoop f (collapseSpaces s) else s)
    by_cases hc : containsPat SS s
    · rw [if_pos hc]
      exact ih _ (collapseSpaces_preserves_no_NNN s h)
    · rw [if_neg hc]
      exact h

theorem exists_dropWhile_decomp {α : Type} (p : α → Bool) (s : List α) :
    ∃ u, s = u ++ s.dropWhile p := by
  induction s with
  | nil => exact ⟨[], rfl⟩
  | cons c cs ih =>
    by_cases h : p c = true
    · obtain ⟨u, hu⟩ := ih
      refine ⟨c :: u, ?_⟩
      rw [List.dropWhile_cons, if_pos h, List.cons_append]
      exact congrArg (c :: ·) hu
    · exact ⟨[], by rw [List.dropWhile_cons, if_neg h, List.nil_append]⟩

theorem strip_decomp (s : Str) : ∃ u v, s = u ++ strip s ++ v := by
  obtain ⟨u, hu⟩ := exists_dropWhile_decomp isWS s
  obtain ⟨w, hw⟩ := exists_dropWhile_decomp isWS (s.dropWhile isWS).reverse
  refine ⟨u, w.reverse, ?_⟩
  have h2 : s.dropWhile isWS =
      (((s.dropWhile isWS).reverse.dropWhile isWS).reverse) ++ w.reverse := by
    have hrev := congrArg List.reverse hw
    rw [List.reverse_reverse, List.reverse_append] at hrev
    exact hrev
  calc s = u ++ s.dropWhile isWS := hu
    _ = u ++ ((((s.dropWhile isWS).reverse.dropWhile isWS).reverse) ++ w.reverse) := by
        rw [← h2]
    _ = u ++ strip s ++ w.reverse := by rw [strip, List.append_assoc]

theorem occursIn_strip {pat : Str} (s : Str) (h : OccursIn pat (strip s)) :
    OccursIn pat s := by
  obtain ⟨u, v, huv⟩ := strip_decomp s
  rw [huv]
  exact occursIn_of_occursIn_middle u v h

theorem head_dropWhile {α : Type} (p : α → Bool) (s : List α) :
    ∀ c ∈ (s.dropWhile p).head?, p c = false := by
  induction s with
  | nil => intro c hc; simp at hc
  | cons a as ih =>
    intro c hc
    by_cases h : p a = true
    · rw [List.dropWhile_cons, if_pos h] at hc
      exact ih c hc
    · rw [List.dropWhile_cons, if_neg h] at hc
      simp only [List.head?_cons, Option.mem_def, Option.some.injEq] at hc
      rw [← hc]
      exact Bool.not_eq_true _ ▸ h

theorem head?_append_left {α : Type} (l r : List α) (c : α)
    (h : l.head? = some c) : (l ++ r).head? = some c := by
  cases l with
  | nil => simp at h
  | cons a as => simpa using h

theorem strip_head (s : Str) : ∀ c ∈ (strip s).head?, isWS c = false := by
  intro c hc
  obtain ⟨w, hw⟩ := exists_dropWhile_decomp isWS (s.dropWhile isWS).reverse
  have h2 : s.dropWhile isWS = strip s ++ w.reverse := by
    have hrev := congrArg List.reverse hw
    rw [List.reverse_reverse, List.reverse_append] at hrev
    exact hrev
  have hht : (s.dropWhile isWS).head? = some c := by
    rw [h2]
    exact head?_append_left _ _ c hc
  exact head_dropWhile isWS s c hht

theorem strip_last (s : Str) : ∀ c ∈ (strip s).getLast?, isWS c = false := by
  intro c hc
  rw [strip, List.getLast?_reverse] at hc
  exact head_dropWhile isWS _ c hc

theorem dropWhile_eq_self_of_head {α : Type} (p : α → Bool) (s : List α)
    (h : ∀ c ∈ s.head?, p c = false) : s.dropWhile p = s := by
  cases s with
  | nil => rfl
  | cons a as =>
    have ha := h a (by simp)
    rw [List.dropWhile_cons, if_neg (by simp [ha])]

theorem strip_idem (s : Str) : strip (strip s) = strip s := by
  have h1 : (strip s).dropWhile isWS = strip s :=
    dropWhile_eq_self_of_head isWS _ (strip_head s)
  show (((strip s).dropWhile isWS).reverse.dropWhile isWS).reverse = strip s
  rw [h1]
  have h2 : ((strip s).reverse).dropWhile isWS = (strip s).reverse :=
    dropWhile_eq_self_of_head isWS _ (by
      intro c hc
      rw [List.head?_reverse] at hc
      exact strip_last s c hc)
  rw [h2, List.reverse_reverse]

theorem newlinesLoop_id (f : ℕ) (s : Str) (h : ¬ OccursIn NNN s) :
    newlinesLoop f s = s := by
  cases f with
  | zero => rfl
  | succ f =>
    show (if containsPat NNN s then newlinesLoop f (collapseNewlines s) else s) = s
    rw [if_neg (fun hc => h ((containsPat_iff _ _).mp hc))]

theorem spacesLoop_id (f : ℕ) (s : Str) (h : ¬ OccursIn SS s) :
    spacesLoop f s = s := by
  cases f with
  | zero => rfl
  | succ f =>
    show (if containsPat SS s then spacesLoop f (collapseSpaces s) else s) = s
    rw [if_neg (fun hc => h ((containsPat_iff _ _).mp hc))]

end PDFProcessor

open PDFProcessor

/-- C9: `_clean_text` is idempotent, and its output never contains two
consecutive spaces or three consecutive newlines and has no leading or
trailing whitespace. -/
theorem C9_clean_text_idempotent (t : Str) :
    clean_text (clean_text t) = clean_text t
    ∧ ¬ OccursIn SS (clean_text t)
    ∧ ¬ OccursIn NNN (clean_text t)
    ∧ (∀ c ∈ (clean_text t).head?, isWS c = false)
    ∧ (∀ c ∈ (clean_text t).getLast?, isWS c = false) := by
  set n1 := newlinesLoop t.length t
  set s1 := spacesLoop n1.length n1
  have hct : clean_text t = strip s1 := rfl
  have hnoNNN1 : ¬ OccursIn NNN n1 := newlinesLoop_no t.length t le_rfl
  have hnoSS1 : ¬ OccursIn SS s1 := spacesLoop_no n1.length n1 le_rfl
  have hnoNNN2 : ¬ OccursIn NNN s1 :=
    spacesLoop_preserves_no_NNN n1.length n1 hnoNNN1
  have hnoSS : ¬ OccursIn SS (clean_text t) := by
    rw [hct]; intro h; exact hnoSS1 (occursIn_strip s1 h)
  have hnoNNN : ¬ OccursIn NNN (clean_text t) := by
    rw [hct]; intro h; exact hnoNNN2 (occursIn_strip s1 h)
  refine ⟨?_, hnoSS, hnoNNN,
    by rw [hct]; exact strip_head s1,
    by rw [hct]; exact strip_last s1⟩
  have e1 : newlinesLoop (clean_text t).length (clean_text t) = clean_text t :=
    newlinesLoop_id _ _ hnoNNN
  rw [show clean_text (clean_text t) = strip (spacesLoop
    (newlinesLoop (clean_text t).length (clean_text t)).length
    (newlinesLoop (clean_text t).length (clean_text t))) from rfl]
  rw [e1, spacesLoop_id _ _ hnoSS, hct, strip_idem]

/-- C9 witness at a concrete raw text. -/
theorem C9_witness :
    clean_text (clean_text (("  a\n\n\n\nb   c  ").toList)) =
      clean_text (("  a\n\n\n\nb   c  ").toList)
    ∧ isWS 'a' = false :=
  ⟨(C9_clean_text_idempotent (("  a\n\n\n\nb   c  ").toList)).1,
   (C9_clean_text_idempotent (("  a\n\n\n\nb   c  ").toList)).2.2.2.1 'a'
     (by decide)⟩
